import Mathlib

/-!
Verification of the inline suppression-directive engine and report
aggregation of the scopelint convention checker.

Shallow embedding of:
  * `src/check/inline_config.rs` (directive parsing, suppression range
    builder, suppression queries);
  * `src/check/report.rs` (report aggregation and rendering).

Source text is modelled as a `List Char`, with byte offsets embedded as
character indices.  Rust string slicing (which panics when an index is out
of range) is embedded as an `Option`-returning slice operation, and the
range builder consequently returns `Option InlineConfig`: `none` is the
embedding of an out-of-range panic.

The comment-state primitive (`check/comments.rs`, whose source is not part
of the analysed tree) is a parameter: a function producing, for a slice of
the source, the index/character pairs the Rust code obtains from
`comment_state_char_indices()` after keeping only `CommentState::None`
entries.  The report item type `InvalidItem` (from `check/utils.rs`, also
absent from the analysed tree) is modelled from the spec.
-/

namespace Scopelint

/-- A source location: `(start, end)` offsets into one file's text.
The Rust `Loc::end` field is called `stop` here because `end` is a Lean
keyword. -/
structure Loc where
  start : Nat
  stop : Nat
deriving DecidableEq, Repr

/-- The closed vocabulary of lint rules (`ValidatorKind` in `check/utils.rs`,
reproduced from its uses and from `parse_rule_name`). -/
inductive ValidatorKind where
  | Error
  | Import
  | Variable
  | Constant
  | Test
  | Script
  | Src
  | Eip712
deriving DecidableEq, Repr

/-- The scope of a rule-specific ignore directive. -/
inductive RuleIgnoreScope where
  | NextItem
  | Line
  | NextLine
  | Start
  | End
  | File
deriving DecidableEq, Repr

/-- An inline config item (`InlineConfigItem` in `inline_config.rs`). -/
inductive InlineConfigItem where
  | DisableNextItem
  | DisableLine
  | DisableNextLine
  | DisableStart
  | DisableEnd
  | IgnoreNextItem
  | IgnoreLine
  | IgnoreNextLine
  | IgnoreStart
  | IgnoreEnd
  | IgnoreRule (kind : ValidatorKind) (scope : RuleIgnoreScope)
deriving DecidableEq, Repr

/-- A disabled formatting range (`DisabledRange`). -/
structure DisabledRange where
  start : Nat
  stop : Nat
  loose : Bool
deriving DecidableEq, Repr

/-- `DisabledRange::includes`. -/
def DisabledRange.includes (r : DisabledRange) (loc : Loc) : Bool :=
  if r.loose then
    decide (loc.start ≥ r.start) && decide (loc.start < r.stop)
  else
    decide (loc.start ≥ r.start) && decide (loc.stop ≤ r.stop)

/-- An ignored linting range (`IgnoredRange`). -/
structure IgnoredRange where
  start : Nat
  stop : Nat
  loose : Bool
deriving DecidableEq, Repr

/-- `IgnoredRange::includes`. -/
def IgnoredRange.includes (r : IgnoredRange) (loc : Loc) : Bool :=
  if r.loose then
    decide (loc.start ≥ r.start) && decide (loc.start < r.stop)
  else
    decide (loc.start ≥ r.start) && decide (loc.stop ≤ r.stop)

/-- The finished suppression set (`InlineConfig`).  The Rust `HashMap` from
`ValidatorKind` to range lists is embedded as a total function defaulting to
`[]`; `HashMap::get` returning `None` and returning `Some` of an empty list
are observationally equal through the query interface. -/
structure InlineConfig where
  disabled_ranges : List DisabledRange
  ignored_ranges : List IgnoredRange
  rule_ignored_ranges : ValidatorKind → List IgnoredRange

/-- `InlineConfig::is_disabled`. -/
def InlineConfig.is_disabled (c : InlineConfig) (loc : Loc) : Bool :=
  c.disabled_ranges.any fun r => r.includes loc

/-- `InlineConfig::is_ignored`. -/
def InlineConfig.is_ignored (c : InlineConfig) (loc : Loc) : Bool :=
  c.ignored_ranges.any fun r => r.includes loc

/-- `InlineConfig::is_rule_ignored`. -/
def InlineConfig.is_rule_ignored (c : InlineConfig) (loc : Loc)
    (kind : ValidatorKind) : Bool :=
  (c.rule_ignored_ranges kind).any fun r => r.includes loc

/-- `str::strip_prefix`: if `p` is an initial segment of `s`, the remainder. -/
def stripPfx : List Char → List Char → Option (List Char)
  | [], s => some s
  | _ :: _, [] => none
  | p :: ps, c :: cs => if c = p then stripPfx ps cs else none

/-- `str::strip_suffix` (and `str::ends_with`, which in the source always
guards a `strip_suffix` of the same suffix: `ends_with` holds iff this
returns `some`). -/
def stripSfx (sfx s : List Char) : Option (List Char) :=
  match stripPfx sfx.reverse s.reverse with
  | some r => some r.reverse
  | none => none

/-- `str::split_once`: splits at the first occurrence of `sep`. -/
def splitOnce (sep : Char) : List Char → Option (List Char × List Char)
  | [] => none
  | c :: cs =>
    if c = sep then some ([], cs)
    else
      match splitOnce sep cs with
      | some (a, b) => some (c :: a, b)
      | none => none

/-- `parse_rule_name`: maps a rule name to a `ValidatorKind`. -/
def parse_rule_name (rule : List Char) : Option ValidatorKind :=
  if rule = "error".toList then some ValidatorKind.Error
  else if rule = "import".toList then some ValidatorKind.Import
  else if rule = "variable".toList then some ValidatorKind.Variable
  else if rule = "constant".toList then some ValidatorKind.Constant
  else if rule = "test".toList then some ValidatorKind.Test
  else if rule = "script".toList then some ValidatorKind.Script
  else if rule = "src".toList then some ValidatorKind.Src
  else if rule = "eip712".toList then some ValidatorKind.Eip712
  else none

/-- The scope-suffix match inside the `split_once` branch of `from_str`. -/
def ruleScopeOfStr (scope_str : List Char) : Option RuleIgnoreScope :=
  if scope_str = "next-item".toList then some RuleIgnoreScope.NextItem
  else if scope_str = "line".toList then some RuleIgnoreScope.Line
  else if scope_str = "next-line".toList then some RuleIgnoreScope.NextLine
  else if scope_str = "start".toList then some RuleIgnoreScope.Start
  else if scope_str = "end".toList then some RuleIgnoreScope.End
  else none

/-- The final generic-directive `match` of `from_str`; the error value is the
whole input string, as in `InvalidInlineConfigItem(s.into())`. -/
def genericItem (s : List Char) : Except (List Char) InlineConfigItem :=
  if s = "disable-next-item".toList then Except.ok InlineConfigItem.DisableNextItem
  else if s = "disable-line".toList then Except.ok InlineConfigItem.DisableLine
  else if s = "disable-next-line".toList then Except.ok InlineConfigItem.DisableNextLine
  else if s = "disable-start".toList then Except.ok InlineConfigItem.DisableStart
  else if s = "disable-end".toList then Except.ok InlineConfigItem.DisableEnd
  else if s = "ignore-next-item".toList then Except.ok InlineConfigItem.IgnoreNextItem
  else if s = "ignore-line".toList then Except.ok InlineConfigItem.IgnoreLine
  else if s = "ignore-next-line".toList then Except.ok InlineConfigItem.IgnoreNextLine
  else if s = "ignore-start".toList then Except.ok InlineConfigItem.IgnoreStart
  else if s = "ignore-end".toList then Except.ok InlineConfigItem.IgnoreEnd
  else Except.error s

/-- The fall-through after the `split_once` branch fails to produce a rule:
the bare `ignore-<rule>` check (defaulting to `NextItem` scope), then the
generic-directive match. -/
def bareOrGeneric (rest s : List Char) : Except (List Char) InlineConfigItem :=
  match parse_rule_name rest with
  | some kind => Except.ok (InlineConfigItem.IgnoreRule kind RuleIgnoreScope.NextItem)
  | none => genericItem s

/-- `impl FromStr for InlineConfigItem`. -/
def InlineConfigItem.from_str (s : List Char) :
    Except (List Char) InlineConfigItem :=
  match stripPfx "ignore-".toList s with
  | some rest =>
    match (stripSfx "-file".toList rest).bind parse_rule_name with
    | some kind => Except.ok (InlineConfigItem.IgnoreRule kind RuleIgnoreScope.File)
    | none =>
      match splitOnce '-' rest with
      | some (rule, scope_str) =>
        match parse_rule_name rule with
        | some kind =>
          match ruleScopeOfStr scope_str with
          | some scope => Except.ok (InlineConfigItem.IgnoreRule kind scope)
          | none => Except.error s
        | none => bareOrGeneric rest s
      | none => bareOrGeneric rest s
  | none => genericItem s

/-- Rust slice `src[i..]`, which panics when `i` is out of range; the panic
is embedded as `none`. -/
def sliceFrom (src : List Char) (i : Nat) : Option (List Char) :=
  if i ≤ src.length then some (src.drop i) else none

/-- Rust slice `src[..i]`, which panics when `i` is out of range; the panic
is embedded as `none`. -/
def sliceTo (src : List Char) (i : Nat) : Option (List Char) :=
  if i ≤ src.length then some (src.take i) else none

/-- Modelled from the spec: the comment-state primitive of
`check/comments.rs` (absent from the analysed tree).  For a slice of the
source it yields the index/character pairs that
`comment_state_char_indices()` produces once the builder's `filter_map`
keeps only the `CommentState::None` (normal code) entries.  The spec only
requires it to "iterate characters with a comment/non-comment
classification", so it is kept as a parameter of the builder. -/
def CommentScanner : Type := List Char → List (Nat × Char)

/-- A comment scanner enumerates positions of the slice it is given: every
index it returns is in range and carries the character at that index. -/
def CommentScanner.Valid (cc : CommentScanner) : Prop :=
  ∀ l : List Char, ∀ p ∈ cc l, p ∈ l.enum

/-- The trivial comment scanner that classifies every character as normal
code (no comments in the slice). -/
def allCode : CommentScanner := fun l => l.enum

/-- The brace-balance loop of the `IgnoreNextItem` and rule-scoped
`NextItem` arms: walks `(idx, ch)` pairs keeping a signed brace counter and
a "declaration body found" flag; returns `some (idx + 1)` for the closing
brace that returns the counter to zero after it was set, else `none`. -/
def findBraceEnd : List (Nat × Char) → Int → Bool → Option Nat
  | [], _, _ => none
  | (idx, ch) :: rest, brace_count, found_function_start =>
    if ch = '{' then findBraceEnd rest (brace_count + 1) true
    else if ch = '}' then
      if found_function_start && decide (brace_count - 1 = 0) then some (idx + 1)
      else findBraceEnd rest (brace_count - 1) found_function_start
    else findBraceEnd rest brace_count found_function_start

/-- The mutable state threaded through `InlineConfig::new`'s token loop. -/
structure BuildState where
  disabled_ranges : List DisabledRange
  disabled_range_start : Option Nat
  disabled_depth : Nat
  ignored_ranges : List IgnoredRange
  ignored_range_start : Option Nat
  ignored_depth : Nat
  rule_ignored_ranges : ValidatorKind → List IgnoredRange
  rule_ignored_starts : ValidatorKind → Option Nat
  rule_ignored_depths : ValidatorKind → Nat

/-- The initial state of `InlineConfig::new`. -/
def BuildState.init : BuildState where
  disabled_ranges := []
  disabled_range_start := none
  disabled_depth := 0
  ignored_ranges := []
  ignored_range_start := none
  ignored_depth := 0
  rule_ignored_ranges := fun _ => []
  rule_ignored_starts := fun _ => none
  rule_ignored_depths := fun _ => 0

/-- Pointwise update of a per-rule map (the embedding of writing through a
`HashMap` entry). -/
def updMap {β : Type} (f : ValidatorKind → β) (k : ValidatorKind) (v : β) :
    ValidatorKind → β :=
  fun k' => if k' = k then v else f k'

/-- One iteration of the token loop of `InlineConfig::new`: processes a
single `(loc, item)` pair against the current state.  `none` embeds an
out-of-range slice panic. -/
def InlineConfig.step (cc : CommentScanner) (src : List Char)
    (st : BuildState) : Loc × InlineConfigItem → Option BuildState
  | (loc, InlineConfigItem.DisableNextItem) =>
    match sliceFrom src loc.stop with
    | none => none
    | some tail =>
      match (cc tail).dropWhile (fun p => p.2.isWhitespace) with
      | [] => some st
      | (i, _) :: rest =>
        let start := loc.stop + i
        let stop :=
          match rest.find? (fun p => !p.2.isWhitespace) with
          | some (j, _) => loc.stop + j
          | none => src.length
        some { st with disabled_ranges :=
                 st.disabled_ranges ++ [⟨start, stop, true⟩] }
  | (loc, InlineConfigItem.DisableLine) =>
    match sliceTo src loc.start, sliceFrom src loc.stop with
    | some pre, some post =>
      let start :=
        match pre.enum.reverse.dropWhile (fun p => p.2 ≠ '\n') with
        | (i, _) :: _ => i
        | [] => 0
      let stop := loc.stop +
        (match post.enum.dropWhile (fun p => p.2 ≠ '\n') with
         | (i, _) :: _ => i
         | [] => 0)
      some { st with disabled_ranges :=
               st.disabled_ranges ++ [⟨start, stop, false⟩] }
    | _, _ => none
  | (loc, InlineConfigItem.DisableNextLine) =>
    match sliceFrom src loc.stop with
    | none => none
    | some tail =>
      match (tail.enum.dropWhile (fun p => p.2 ≠ '\n')).drop 1 with
      | [] => some st
      | (i, _) :: rest =>
        let start := loc.stop + i
        let stop :=
          match rest.find? (fun p => p.2 = '\n') with
          | some (j, _) => loc.stop + j + 1
          | none => src.length
        some { st with disabled_ranges :=
                 st.disabled_ranges ++ [⟨start, stop, false⟩] }
  | (loc, InlineConfigItem.DisableStart) =>
    some { st with
      disabled_range_start :=
        if st.disabled_depth = 0 then some loc.stop else st.disabled_range_start
      disabled_depth := st.disabled_depth + 1 }
  | (loc, InlineConfigItem.DisableEnd) =>
    let d := st.disabled_depth - 1
    if d = 0 then
      match st.disabled_range_start with
      | some s =>
        some { st with
                 disabled_depth := d
                 disabled_range_start := none
                 disabled_ranges := st.disabled_ranges ++ [⟨s, loc.start, false⟩] }
      | none =>
        some { st with
                 disabled_depth := d
                 disabled_range_start := none }
    else some { st with disabled_depth := d }
  | (loc, InlineConfigItem.IgnoreNextItem) =>
    match sliceFrom src loc.stop with
    | none => none
    | some tail =>
      match (cc tail).dropWhile (fun p => p.2.isWhitespace) with
      | [] => some st
      | (i, _) :: _ =>
        let start := loc.stop + i
        match sliceFrom src start with
        | none => none
        | some tail2 =>
          let stop :=
            match findBraceEnd tail2.enum 0 false with
            | some e => start + e
            | none => src.length
          some { st with ignored_ranges :=
                   st.ignored_ranges ++ [⟨start, stop, true⟩] }
  | (loc, InlineConfigItem.IgnoreLine) =>
    match sliceTo src loc.start, sliceFrom src loc.stop with
    | some pre, some post =>
      let start :=
        match pre.enum.reverse.dropWhile (fun p => p.2 ≠ '\n') with
        | (i, _) :: _ => i
        | [] => 0
      let stop := loc.stop +
        (match post.enum.dropWhile (fun p => p.2 ≠ '\n') with
         | (i, _) :: _ => i
         | [] => 0)
      some { st with ignored_ranges :=
               st.ignored_ranges ++ [⟨start, stop, false⟩] }
    | _, _ => none
  | (loc, InlineConfigItem.IgnoreNextLine) =>
    match sliceFrom src loc.stop with
    | none => none
    | some tail =>
      match (tail.enum.dropWhile (fun p => p.2 ≠ '\n')).drop 1 with
      | [] => some st
      | (i, _) :: rest =>
        let start := loc.stop + i
        let stop :=
          match rest.find? (fun p => p.2 = '\n') with
          | some (j, _) => loc.stop + j + 1
          | none => src.length
        some { st with ignored_ranges :=
                 st.ignored_ranges ++ [⟨start, stop, false⟩] }
  | (loc, InlineConfigItem.IgnoreStart) =>
    some { st with
      ignored_range_start :=
        if st.ignored_depth = 0 then some loc.stop else st.ignored_range_start
      ignored_depth := st.ignored_depth + 1 }
  | (loc, InlineConfigItem.IgnoreEnd) =>
    let d := st.ignored_depth - 1
    if d = 0 then
      match st.ignored_range_start with
      | some s =>
        some { st with
                 ignored_depth := d
                 ignored_range_start := none
                 ignored_ranges := st.ignored_ranges ++ [⟨s, loc.start, false⟩] }
      | none =>
        some { st with
                 ignored_depth := d
                 ignored_range_start := none }
    else some { st with ignored_depth := d }
  | (loc, InlineConfigItem.IgnoreRule kind scope) =>
    match scope with
    | RuleIgnoreScope.NextItem =>
      match sliceFrom src loc.stop with
      | none => none
      | some tail =>
        match (cc tail).dropWhile (fun p => p.2.isWhitespace) with
        | [] => some st
        | (i, _) :: _ =>
          let start := loc.stop + i
          match sliceFrom src start with
          | none => none
          | some tail2 =>
            let stop :=
              match findBraceEnd tail2.enum 0 false with
              | some e => start + e
              | none => src.length
            let m := updMap st.rule_ignored_ranges kind
              (st.rule_ignored_ranges kind ++ [⟨start, stop, true⟩])
            some { st with rule_ignored_ranges := m }
    | RuleIgnoreScope.Line =>
      match sliceTo src loc.start, sliceFrom src loc.stop with
      | some pre, some post =>
        let start :=
          match pre.enum.reverse.dropWhile (fun p => p.2 ≠ '\n') with
          | (i, _) :: _ => i
          | [] => 0
        let stop := loc.stop +
          (match post.enum.dropWhile (fun p => p.2 ≠ '\n') with
           | (i, _) :: _ => i
           | [] => 0)
        let m := updMap st.rule_ignored_ranges kind
          (st.rule_ignored_ranges kind ++ [⟨start, stop, false⟩])
        some { st with rule_ignored_ranges := m }
      | _, _ => none
    | RuleIgnoreScope.NextLine =>
      match sliceFrom src loc.stop with
      | none => none
      | some tail =>
        match (tail.enum.dropWhile (fun p => p.2 ≠ '\n')).drop 1 with
        | [] => some st
        | (i, _) :: rest =>
          let start := loc.stop + i
          let stop :=
            match rest.find? (fun p => p.2 = '\n') with
            | some (j, _) => loc.stop + j + 1
            | none => src.length
          let m := updMap st.rule_ignored_ranges kind
            (st.rule_ignored_ranges kind ++ [⟨start, stop, true⟩])
          some { st with rule_ignored_ranges := m }
    | RuleIgnoreScope.Start =>
      let sNew :=
        if st.rule_ignored_depths kind = 0 then
          updMap st.rule_ignored_starts kind (some loc.stop)
        else st.rule_ignored_starts
      let dNew := updMap st.rule_ignored_depths kind (st.rule_ignored_depths kind + 1)
      some { st with
               rule_ignored_starts := sNew
               rule_ignored_depths := dNew }
    | RuleIgnoreScope.End =>
      let d := st.rule_ignored_depths kind - 1
      if d = 0 then
        match st.rule_ignored_starts kind with
        | some s =>
          let m := updMap st.rule_ignored_ranges kind
            (st.rule_ignored_ranges kind ++ [⟨s, loc.stop, false⟩])
          some { st with
                   rule_ignored_depths := updMap st.rule_ignored_depths kind d
                   rule_ignored_starts := updMap st.rule_ignored_starts kind none
                   rule_ignored_ranges := m }
        | none =>
          some { st with
                   rule_ignored_depths := updMap st.rule_ignored_depths kind d
                   rule_ignored_starts := updMap st.rule_ignored_starts kind none }
      else some { st with rule_ignored_depths := updMap st.rule_ignored_depths kind d }
    | RuleIgnoreScope.File =>
      let m := updMap st.rule_ignored_ranges kind
        (st.rule_ignored_ranges kind ++ [⟨0, src.length + 1, true⟩])
      some { st with rule_ignored_ranges := m }

/-- The tail of `InlineConfig::new`: flushes any pending (unterminated)
region of each universe as a strict range ending at end-of-file. -/
def InlineConfig.flush (st : BuildState) (src : List Char) : InlineConfig where
  disabled_ranges := st.disabled_ranges ++
    (match st.disabled_range_start with
     | some s => [⟨s, src.length, false⟩]
     | none => [])
  ignored_ranges := st.ignored_ranges ++
    (match st.ignored_range_start with
     | some s => [⟨s, src.length, false⟩]
     | none => [])
  rule_ignored_ranges := fun k => st.rule_ignored_ranges k ++
    (match st.rule_ignored_starts k with
     | some s => [⟨s, src.length, false⟩]
     | none => [])

/-- `InlineConfig::new`: sorts the items by their location's start offset
(`sorted_by_key` is a stable sort), folds the step over them, then flushes
pending regions.  `none` embeds a slicing panic. -/
def InlineConfig.new (cc : CommentScanner)
    (items : List (Loc × InlineConfigItem)) (src : List Char) :
    Option InlineConfig :=
  let sorted := items.mergeSort fun a b => decide (a.1.start ≤ b.1.start)
  match sorted.foldlM (InlineConfig.step cc src) BuildState.init with
  | some st => some (InlineConfig.flush st src)
  | none => none

/-- Index of a `ValidatorKind` in its declaration order, used for the
report's deterministic ordering. -/
def ValidatorKind.idx : ValidatorKind → Nat
  | ValidatorKind.Error => 0
  | ValidatorKind.Import => 1
  | ValidatorKind.Variable => 2
  | ValidatorKind.Constant => 3
  | ValidatorKind.Test => 4
  | ValidatorKind.Script => 5
  | ValidatorKind.Src => 6
  | ValidatorKind.Eip712 => 7

/-- Modelled from the spec: a Finding (`InvalidItem` in `check/utils.rs`,
absent from the analysed tree): rule identifier, file path and position
within the file, message, plus the two suppression booleans `is_disabled`
and `is_ignored` — `report.rs` reads both as stored fields of the item, so
they are fields here. -/
structure InvalidItem where
  file : String
  position : Nat
  kind : ValidatorKind
  message : String
  is_disabled : Bool
  is_ignored : Bool
deriving DecidableEq, Repr

/-- Modelled from the spec: `InvalidItem::description` (in the absent
`check/utils.rs`), the one-line textual rendering of a Finding. -/
def InvalidItem.description (i : InvalidItem) : String :=
  i.file ++ ":" ++ toString i.position ++ ": " ++ i.message

/-- Modelled from the spec: the total deterministic order on report items —
file path, then position within the file, then rule — refined to a total
order by the remaining fields (the Rust `Ord` derive on `InvalidItem` in
the absent `check/utils.rs` compares all fields lexicographically). -/
def itemKey (i : InvalidItem) :
    Lex (String × Lex (Nat × Lex (Nat × Lex (String × Lex (Bool × Bool))))) :=
  toLex (i.file, toLex (i.position, toLex (i.kind.idx,
    toLex (i.message, toLex (i.is_disabled, i.is_ignored)))))

/-- The Boolean comparison used to sort report items. -/
def itemLe (a b : InvalidItem) : Bool := decide (itemKey a ≤ itemKey b)

/-- `Report`: the accumulated invalid items of a run. -/
structure Report where
  invalid_items : List InvalidItem
deriving DecidableEq

/-- `Report::add_item`. -/
def Report.add_item (r : Report) (item : InvalidItem) : Report :=
  ⟨r.invalid_items ++ [item]⟩

/-- `Report::add_items`. -/
def Report.add_items (r : Report) (items : List InvalidItem) : Report :=
  ⟨r.invalid_items ++ items⟩

/-- `Report::is_valid`. -/
def Report.is_valid (r : Report) : Bool :=
  !(r.invalid_items.any fun item => !item.is_disabled && !item.is_ignored)

/-- The filter of `impl fmt::Display for Report`: an item is rendered iff
it is neither disabled nor ignored. -/
def unsuppressed (item : InvalidItem) : Bool :=
  !item.is_disabled && !item.is_ignored

/-- `impl fmt::Display for Report`, as the list of emitted lines: filter
the unsuppressed items, sort them, and render one description per line. -/
def Report.fmtLines (r : Report) : List String :=
  ((r.invalid_items.filter unsuppressed).mergeSort itemLe).map
    InvalidItem.description

/-- The rendered report text: one line per unsuppressed item. -/
def Report.fmt (r : Report) : String :=
  String.join (r.fmtLines.map fun l => l ++ "\n")

/-- The least-index occurrence of a character satisfying `p`, together with
that character: the declarative form of "the first such character". -/
def firstHitP (p : Char → Bool) : List Char → Option (Nat × Char)
  | [] => none
  | c :: cs =>
    if p c then some (0, c)
    else (firstHitP p cs).map fun q => (q.1 + 1, q.2)

/-- The greatest-index occurrence of a character satisfying `p`, together
with that character: the declarative form of "the last such character". -/
def lastHitP (p : Char → Bool) : List Char → Option (Nat × Char)
  | [] => none
  | c :: cs =>
    match lastHitP p cs with
    | some q => some (q.1 + 1, q.2)
    | none => if p c then some (0, c) else none

/-- The Line-scope range start as the source computes it, stated
declaratively: the offset of the last newline strictly before `m` (`take m`
keeps exactly the offsets below `m`), or `0` when there is none. -/
def specLineStart (src : List Char) (m : Nat) : Nat :=
  match lastHitP (fun c => decide (c = '\n')) (src.take m) with
  | some q => q.1
  | none => 0

/-- The Line-scope range end as the source computes it, stated
declaratively: the offset of the first newline at or after `m`, or `m`
itself when no newline follows. -/
def specLineStop (src : List Char) (m : Nat) : Nat :=
  m + (match firstHitP (fun c => decide (c = '\n')) (src.drop m) with
       | some q => q.1
       | none => 0)

/-- The NextLine-scope range as the source computes it, stated
declaratively: `none` when no character follows the next newline after `m`;
otherwise the range starts at the first character after that newline and
ends just past the following newline (or at end of file). -/
def specNextLineRange (src : List Char) (m : Nat) : Option (Nat × Nat) :=
  match firstHitP (fun c => decide (c = '\n')) (src.drop m) with
  | none => none
  | some q =>
    if m + q.1 + 1 < src.length then
      let start := m + q.1 + 1
      let stop :=
        match firstHitP (fun c => decide (c = '\n')) (src.drop (start + 1)) with
        | some r => start + 1 + r.1 + 1
        | none => src.length
      some (start, stop)
    else none

/-- Whether a parse result is a rule-scoped directive. -/
def isRuleOk : Except (List Char) InlineConfigItem → Bool
  | Except.ok (InlineConfigItem.IgnoreRule _ _) => true
  | _ => false

/-! ## Supporting lemmas -/

theorem ValidatorKind.idx_inj {a b : ValidatorKind} (h : a.idx = b.idx) :
    a = b := by
  cases a <;> cases b <;> simp_all [ValidatorKind.idx]

theorem itemKey_inj {a b : InvalidItem} (h : itemKey a = itemKey b) :
    a = b := by
  obtain ⟨af, ap, ak, am, ad, ai⟩ := a
  obtain ⟨bf, bp, bk, bm, bd, bi⟩ := b
  simp only [itemKey, toLex_inj, Prod.mk.injEq] at h
  obtain ⟨h1, h2, h3, h4, h5, h6⟩ := h
  exact InvalidItem.mk.injEq .. ▸ ⟨h1, h2, ValidatorKind.idx_inj h3, h4, h5, h6⟩

theorem itemLe_trans (a b c : InvalidItem) (h1 : itemLe a b = true)
    (h2 : itemLe b c = true) : itemLe a c = true := by
  simp only [itemLe, decide_eq_true_eq] at *
  exact le_trans h1 h2

theorem itemLe_total (a b : InvalidItem) :
    (itemLe a b || itemLe b a) = true := by
  simp only [itemLe, Bool.or_eq_true, decide_eq_true_eq]
  exact le_total (itemKey a) (itemKey b)

theorem itemLe_antisymm (a b : InvalidItem) (h1 : itemLe a b = true)
    (h2 : itemLe b a = true) : a = b := by
  simp only [itemLe, decide_eq_true_eq] at h1 h2
  exact itemKey_inj (le_antisymm h1 h2)

theorem dropWhile_enumFrom (p : Char → Bool) (l : List Char) :
    ∀ n : Nat, (l.enumFrom n).dropWhile (fun q => !(p q.2)) =
      (firstHitP p l).elim [] (fun q => (l.drop q.1).enumFrom (n + q.1)) := by
  induction l with
  | nil => intro n; rfl
  | cons c cs ih =>
    intro n
    by_cases h : p c
    · simp [List.enumFrom, List.dropWhile, firstHitP, h]
    · cases hfc : firstHitP p cs with
      | none => simp [List.enumFrom, List.dropWhile, firstHitP, h, hfc, ih (n + 1)]
      | some q =>
        simp [List.enumFrom, List.dropWhile, firstHitP, h, hfc, ih (n + 1),
          Nat.add_assoc, Nat.add_comm 1 q.1]

theorem find?_enumFrom (p : Char → Bool) (l : List Char) :
    ∀ n : Nat, (l.enumFrom n).find? (fun q => p q.2) =
      (firstHitP p l).map fun q => (n + q.1, q.2) := by
  induction l with
  | nil => intro n; rfl
  | cons c cs ih =>
    intro n
    by_cases h : p c
    · simp [List.enumFrom, List.find?, firstHitP, h]
    · cases hfc : firstHitP p cs with
      | none => simp [List.enumFrom, List.find?, firstHitP, h, hfc, ih (n + 1)]
      | some q =>
        simp [List.enumFrom, List.find?, firstHitP, h, hfc, ih (n + 1),
          Nat.add_assoc, Nat.add_comm 1 q.1]

theorem enumFrom_append (l1 l2 : List Char) :
    ∀ n : Nat, (l1 ++ l2).enumFrom n =
      l1.enumFrom n ++ l2.enumFrom (n + l1.length) := by
  induction l1 with
  | nil => intro n; simp [List.enumFrom]
  | cons c cs ih =>
    intro n
    simp [List.enumFrom, ih (n + 1), Nat.add_assoc, Nat.add_comm 1 cs.length]

theorem lastHitP_append_single (p : Char → Bool) (l : List Char) (c : Char) :
    lastHitP p (l ++ [c]) =
      if p c then some (l.length, c) else lastHitP p l := by
  induction l with
  | nil => by_cases h : p c <;> simp [lastHitP, h]
  | cons a as ih =>
    simp only [List.cons_append, lastHitP, List.append_eq] at *
    rw [ih]
    by_cases h : p c
    · simp [h]
    · simp [h]

theorem head_dropWhile_reverse_enum (p : Char → Bool) (l : List Char) :
    ((l.enum.reverse).dropWhile (fun q => !(p q.2))).head? = lastHitP p l := by
  induction l using List.reverseRecOn with
  | nil => rfl
  | append_singleton l c ih =>
    have he : (l ++ [c]).enum = l.enum ++ [(l.length, c)] := by
      simp [List.enum, enumFrom_append, List.enumFrom]
    rw [he, lastHitP_append_single]
    by_cases h : p c
    · simp [List.dropWhile, h]
    · simp [List.dropWhile, h, ih]

theorem new_singleton (cc : CommentScanner) (src : List Char)
    (x : Loc × InlineConfigItem) :
    InlineConfig.new cc [x] src =
      (InlineConfig.step cc src BuildState.init x).map
        (fun st => InlineConfig.flush st src) := by
  have hs : [x].mergeSort (fun a b => decide (a.1.start ≤ b.1.start)) = [x] :=
    List.mergeSort_of_sorted (by simp)
  simp only [InlineConfig.new, hs]
  cases h : InlineConfig.step cc src BuildState.init x <;>
    simp [List.foldlM, h]

theorem firstHitP_eq_some (p : Char → Bool) (l : List Char) :
    ∀ q : Nat × Char, firstHitP p l = some q →
      q.1 < l.length ∧ l.drop q.1 = q.2 :: l.drop (q.1 + 1) ∧ p q.2 = true := by
  induction l with
  | nil => intro q h; cases h
  | cons c cs ih =>
    intro q h
    simp only [firstHitP] at h
    split at h
    next hc =>
      cases h
      exact ⟨Nat.succ_pos _, rfl, hc⟩
    next hc =>
      rw [Option.map_eq_some'] at h
      obtain ⟨q', hq', rfl⟩ := h
      obtain ⟨h1, h2, h3⟩ := ih q' hq'
      refine ⟨by simpa using Nat.succ_lt_succ h1, ?_, h3⟩
      simpa [List.drop] using h2

theorem nextLine_l2 (src : List Char) (m : Nat) :
    (((src.drop m).enum.dropWhile (fun p => p.2 ≠ '\n')).drop 1) =
      (firstHitP (fun c => decide (c = '\n')) (src.drop m)).elim []
        (fun q => (src.drop (m + q.1 + 1)).enumFrom (q.1 + 1)) := by
  have hpred : (fun p : Nat × Char => decide (p.2 ≠ '\n')) =
      (fun q : Nat × Char => !(decide (q.2 = '\n'))) := by
    funext q; simp
  have h := dropWhile_enumFrom (fun c => decide (c = '\n')) (src.drop m) 0
  rw [← hpred, show (src.drop m).enumFrom 0 = (src.drop m).enum from rfl] at h
  rw [h]
  cases hF : firstHitP (fun c => decide (c = '\n')) (src.drop m) with
  | none => simp
  | some q =>
    simp only [Option.elim]
    obtain ⟨-, hdrop, -⟩ := firstHitP_eq_some _ _ q hF
    rw [hdrop]
    have hdd : (src.drop m).drop (q.1 + 1) = src.drop (m + q.1 + 1) := by
      rw [List.drop_drop]
      congr 1
    simp [List.enumFrom, hdd]

theorem mem_enumFrom_bounds {α : Type} :
    ∀ (l : List α) (n : Nat) (p : Nat × α),
    p ∈ l.enumFrom n → n ≤ p.1 ∧ p.1 < n + l.length := by
  intro l
  induction l with
  | nil => intro n p h; cases h
  | cons a as ih =>
    intro n p h
    simp only [List.enumFrom] at h
    rcases List.mem_cons.mp h with h | h
    · subst h
      simp only [List.length_cons]
      omega
    · have := ih (n + 1) p h
      simp only [List.length_cons]
      omega

theorem nextLine_core_none (src : List Char) (m : Nat)
    (h : specNextLineRange src m = none) :
    (((src.drop m).enum.dropWhile (fun p => p.2 ≠ '\n')).drop 1) = [] := by
  have hl2 := nextLine_l2 src m
  cases hF : firstHitP (fun c => decide (c = '\n')) (src.drop m) with
  | none => rw [hF] at hl2; simpa using hl2
  | some q =>
    rw [hF] at hl2
    simp only [Option.elim] at hl2
    by_cases hcond : m + q.1 + 1 < src.length
    · simp [specNextLineRange, hF, hcond] at h
    · have hnil : src.drop (m + q.1 + 1) = [] := by
        apply List.eq_nil_of_length_eq_zero
        simp only [List.length_drop]
        omega
      rw [hnil] at hl2
      simpa [List.enumFrom] using hl2

theorem nextLine_core_some (src : List Char) (m : Nat)
    (a b : Nat) (h : specNextLineRange src m = some (a, b)) :
    ∃ (i : Nat) (c : Char) (rest : List (Nat × Char)),
      (((src.drop m).enum.dropWhile (fun p => p.2 ≠ '\n')).drop 1) =
        (i, c) :: rest
      ∧ m + i = a
      ∧ (match rest.find? (fun p => p.2 = '\n') with
         | some (j, _) => m + j + 1
         | none => src.length) = b := by
  have hl2 := nextLine_l2 src m
  cases hF : firstHitP (fun c => decide (c = '\n')) (src.drop m) with
  | none => simp [specNextLineRange, hF] at h
  | some q =>
    rw [hF] at hl2
    simp only [Option.elim] at hl2
    by_cases hcond : m + q.1 + 1 < src.length
    · simp only [specNextLineRange, hF] at h
      rw [if_pos hcond] at h
      simp only [Option.some.injEq, Prod.mk.injEq] at h
      obtain ⟨hx, hy⟩ := h
      cases hD : src.drop (m + q.1 + 1) with
      | nil =>
        exfalso
        have hlen := congrArg List.length hD
        simp only [List.length_drop, List.length_nil] at hlen
        omega
      | cons c' t'' =>
        rw [hD] at hl2
        have ht'' : t'' = src.drop (m + q.1 + 1 + 1) := by
          have h3 := List.tail_drop src (m + q.1 + 1)
          rw [hD] at h3
          simpa using h3
        subst ht''
        refine ⟨q.1 + 1, c', (src.drop (m + q.1 + 1 + 1)).enumFrom (q.1 + 1 + 1),
          ?_, ?_, ?_⟩
        · rw [hl2]; rfl
        · omega
        · have hfind : ((src.drop (m + q.1 + 1 + 1)).enumFrom
              (q.1 + 1 + 1)).find? (fun p => p.2 = '\n') =
              (firstHitP (fun c => decide (c = '\n'))
                (src.drop (m + q.1 + 1 + 1))).map
                (fun r => (q.1 + 1 + 1 + r.1, r.2)) := by
            simpa using find?_enumFrom (fun c => decide (c = '\n'))
              (src.drop (m + q.1 + 1 + 1)) (q.1 + 1 + 1)
          rw [hfind]
          cases hG : firstHitP (fun c => decide (c = '\n'))
              (src.drop (m + q.1 + 1 + 1)) with
          | none =>
            rw [hG] at hy
            simpa using hy
          | some r =>
            rw [hG] at hy
            simp only [Option.map_some']
            have hy' : m + q.1 + 1 + 1 + r.1 + 1 = b := hy
            show m + (q.1 + 1 + 1 + r.1) + 1 = b
            omega
    · simp only [specNextLineRange, hF] at h
      rw [if_neg hcond] at h
      cases h

theorem stripPfx_eq_some :
    ∀ (p s r : List Char), stripPfx p s = some r → s = p ++ r := by
  intro p
  induction p with
  | nil =>
    intro s r h
    simp only [stripPfx] at h
    cases h
    rfl
  | cons x xs ih =>
    intro s r h
    cases s with
    | nil => cases h
    | cons c cs =>
      simp only [stripPfx] at h
      split at h
      next hc =>
        subst hc
        simpa using ih cs r h
      next => cases h

theorem stripSfx_eq_some (sfx s r : List Char) (h : stripSfx sfx s = some r) :
    s = r ++ sfx := by
  unfold stripSfx at h
  cases hp : stripPfx sfx.reverse s.reverse with
  | none => rw [hp] at h; cases h
  | some r' =>
    rw [hp] at h
    cases h
    have h1 := stripPfx_eq_some _ _ _ hp
    have h2 := congrArg List.reverse h1
    simpa using h2

theorem splitOnce_eq_some (sep : Char) :
    ∀ (s a b : List Char), splitOnce sep s = some (a, b) →
      s = a ++ sep :: b := by
  intro s
  induction s with
  | nil => intro a b h; cases h
  | cons c cs ih =>
    intro a b h
    simp only [splitOnce] at h
    split at h
    next hc =>
      cases h
      subst hc
      rfl
    next hc =>
      cases hsp : splitOnce sep cs with
      | none => rw [hsp] at h; cases h
      | some ab =>
        obtain ⟨a', b'⟩ := ab
        rw [hsp] at h
        simp only [Option.some.injEq, Prod.mk.injEq] at h
        obtain ⟨ha, hb⟩ := h
        subst ha
        subst hb
        rw [ih a' b' hsp]
        rfl

theorem ruleScopeOfStr_eq_some (t : List Char) (sc : RuleIgnoreScope)
    (h : ruleScopeOfStr t = some sc) :
    t = "next-item".toList ∨ t = "line".toList ∨ t = "next-line".toList
    ∨ t = "start".toList ∨ t = "end".toList := by
  unfold ruleScopeOfStr at h
  split_ifs at h <;> tauto

theorem parse_rule_name_eq_some (rule : List Char) (k : ValidatorKind)
    (h : parse_rule_name rule = some k) :
    rule = "error".toList ∨ rule = "import".toList
    ∨ rule = "variable".toList ∨ rule = "constant".toList
    ∨ rule = "test".toList ∨ rule = "script".toList
    ∨ rule = "src".toList ∨ rule = "eip712".toList := by
  unfold parse_rule_name at h
  split_ifs at h <;> tauto

set_option maxHeartbeats 2000000 in
theorem genericItem_ne_rule (s : List Char) (k : ValidatorKind)
    (sc : RuleIgnoreScope) :
    genericItem s ≠ Except.ok (InlineConfigItem.IgnoreRule k sc) := by
  intro hcon
  unfold genericItem at hcon
  split_ifs at hcon <;> injection hcon with h1 <;> cases h1

set_option maxHeartbeats 2000000 in
theorem genericItem_err (s e : List Char) (h : genericItem s = Except.error e) :
    e = s := by
  unfold genericItem at h
  split_ifs at h
  injection h with h1
  exact h1.symm

theorem bareOrGeneric_ok (rest s : List Char) (k : ValidatorKind)
    (sc : RuleIgnoreScope)
    (h : bareOrGeneric rest s =
      Except.ok (InlineConfigItem.IgnoreRule k sc)) :
    parse_rule_name rest = some k ∧ sc = RuleIgnoreScope.NextItem := by
  unfold bareOrGeneric at h
  cases hr : parse_rule_name rest with
  | none =>
    rw [hr] at h
    exact absurd h (genericItem_ne_rule _ _ _)
  | some k' =>
    rw [hr] at h
    injection h with h1
    injection h1 with hk hsc
    subst hk
    exact ⟨rfl, hsc.symm⟩

theorem bareOrGeneric_err (rest s e : List Char)
    (h : bareOrGeneric rest s = Except.error e) : e = s := by
  unfold bareOrGeneric at h
  cases hr : parse_rule_name rest with
  | none =>
    rw [hr] at h
    exact genericItem_err _ _ h
  | some k' => rw [hr] at h; cases h

/-! ## Claims -/

/-- C1: for every suppression range and location, a Loose range includes a
location iff the location's start lies in `[start, end)`; a Strict range
includes it iff `start ≥ range.start` and `end ≤ range.end`; and
`is_rule_ignored` holds iff the rule's range list (empty when the rule is
absent from the map) contains an including range. -/
theorem includes_is_rule_ignored_spec (r : IgnoredRange) (l : Loc)
    (c : InlineConfig) (k : ValidatorKind) :
    (r.loose = true →
      (r.includes l = true ↔ l.start ≥ r.start ∧ l.start < r.stop))
    ∧ (r.loose = false →
      (r.includes l = true ↔ l.start ≥ r.start ∧ l.stop ≤ r.stop))
    ∧ (c.is_rule_ignored l k = true ↔
      ∃ rg ∈ c.rule_ignored_ranges k, rg.includes l = true) := by
  refine ⟨fun h => ?_, fun h => ?_, ?_⟩
  · simp [IgnoredRange.includes, h]
  · simp [IgnoredRange.includes, h]
  · simp [InlineConfig.is_rule_ignored, List.any_eq_true]

/-- Witness for C1 at concrete inputs. -/
theorem includes_is_rule_ignored_spec_witness :
    ((⟨1, 5, true⟩ : IgnoredRange).includes ⟨2, 9⟩ = true ↔ 2 ≥ 1 ∧ 2 < 5)
    ∧ ((⟨1, 5, false⟩ : IgnoredRange).includes ⟨2, 9⟩ = true ↔ 2 ≥ 1 ∧ 9 ≤ 5) :=
  ⟨(includes_is_rule_ignored_spec ⟨1, 5, true⟩ ⟨2, 9⟩ ⟨[], [], fun _ => []⟩
      ValidatorKind.Error).1 rfl,
   (includes_is_rule_ignored_spec ⟨1, 5, false⟩ ⟨2, 9⟩ ⟨[], [], fun _ => []⟩
      ValidatorKind.Error).2.1 rfl⟩

/-- C2: `is_valid` holds iff every stored item is suppressed by at least one
mechanism (its stored format-suppression or lint/rule-suppression flag);
rendering emits exactly the unsuppressed items, one line each, in a total
deterministic order (file path, then position, then rule), so reports whose
items were added in any order render identically. -/
theorem report_render_spec (r r2 : Report) :
    (Report.is_valid r = true ↔
      ∀ i ∈ r.invalid_items, i.is_disabled = true ∨ i.is_ignored = true)
    ∧ (∃ s : List InvalidItem,
        s.Perm (r.invalid_items.filter unsuppressed)
        ∧ List.Pairwise (fun a b => itemLe a b = true) s
        ∧ Report.fmtLines r = s.map InvalidItem.description)
    ∧ (r.invalid_items.Perm r2.invalid_items → Report.fmt r = Report.fmt r2) := by
  refine ⟨?_, ?_, ?_⟩
  · simp [Report.is_valid]
    constructor
    · intro h i hi
      cases hd : i.is_disabled with
      | true => exact Or.inl rfl
      | false => exact Or.inr (h i hi hd)
    · intro h i hi hd
      rcases h i hi with h' | h'
      · rw [hd] at h'
        cases h'
      · exact h'
  · exact ⟨_, List.mergeSort_perm _ _,
      List.sorted_mergeSort itemLe_trans itemLe_total _, rfl⟩
  · intro hp
    have h1 : (r.invalid_items.filter unsuppressed).Perm
        (r2.invalid_items.filter unsuppressed) := hp.filter _
    have hs : ((r.invalid_items.filter unsuppressed).mergeSort itemLe).Perm
        ((r2.invalid_items.filter unsuppressed).mergeSort itemLe) :=
      ((List.mergeSort_perm _ _).trans h1).trans (List.mergeSort_perm _ _).symm
    haveI : IsAntisymm InvalidItem (fun a b => itemLe a b = true) :=
      ⟨itemLe_antisymm⟩
    have heq := List.eq_of_perm_of_sorted hs
      (List.sorted_mergeSort itemLe_trans itemLe_total _)
      (List.sorted_mergeSort itemLe_trans itemLe_total _)
    simp [Report.fmt, Report.fmtLines, heq]

theorem line_start_eq (src : List Char) (m : Nat) :
    (match (src.take m).enum.reverse.dropWhile (fun p => p.2 ≠ '\n') with
     | (i, _) :: _ => i
     | [] => 0) = specLineStart src m := by
  have hpred : (fun p : Nat × Char => decide (p.2 ≠ '\n')) =
      (fun q : Nat × Char => !(decide (q.2 = '\n'))) := by
    funext q; simp
  have h := head_dropWhile_reverse_enum (fun c => decide (c = '\n')) (src.take m)
  rw [← hpred] at h
  rw [specLineStart]
  cases hL : (src.take m).enum.reverse.dropWhile (fun p => p.2 ≠ '\n') with
  | nil => rw [hL] at h; simp at h; rw [← h]
  | cons a t =>
    rw [hL] at h
    simp at h
    rw [← h]

theorem line_stop_eq (src : List Char) (m : Nat) :
    (m + (match (src.drop m).enum.dropWhile (fun p => p.2 ≠ '\n') with
          | (i, _) :: _ => i
          | [] => 0)) = specLineStop src m := by
  have hpred : (fun p : Nat × Char => decide (p.2 ≠ '\n')) =
      (fun q : Nat × Char => !(decide (q.2 = '\n'))) := by
    funext q; simp
  have h := dropWhile_enumFrom (fun c => decide (c = '\n')) (src.drop m) 0
  rw [← hpred, show (src.drop m).enumFrom 0 = (src.drop m).enum from rfl] at h
  rw [specLineStop]
  cases hF : firstHitP (fun c => decide (c = '\n')) (src.drop m) with
  | none =>
    rw [hF] at h
    simp only [Option.elim] at h
    rw [h]
  | some q =>
    rw [hF] at h
    simp only [Option.elim] at h
    obtain ⟨-, hdrop, -⟩ := firstHitP_eq_some _ _ q hF
    rw [h, hdrop]
    simp [List.enumFrom]

/-- C4 (amended): for every Line-scoped directive (generic disable-line and
ignore-line, and rule-scoped line) at `loc`, the emitted range is Strict,
its start is the offset of the last newline strictly before `loc.start`
(`0` when none exists), and its end is the offset of the first newline at
or after `loc.end` (`loc.end` itself when no newline follows — not end of
file). -/
theorem line_arms_spec (cc : CommentScanner) (src : List Char)
    (st : BuildState) (loc : Loc) (k : ValidatorKind)
    (h1 : loc.start ≤ src.length) (h2 : loc.stop ≤ src.length) :
    InlineConfig.step cc src st (loc, InlineConfigItem.DisableLine) =
      some { st with disabled_ranges := st.disabled_ranges ++
               [⟨specLineStart src loc.start, specLineStop src loc.stop, false⟩] }
    ∧ InlineConfig.step cc src st (loc, InlineConfigItem.IgnoreLine) =
      some { st with ignored_ranges := st.ignored_ranges ++
               [⟨specLineStart src loc.start, specLineStop src loc.stop, false⟩] }
    ∧ InlineConfig.step cc src st (loc, InlineConfigItem.IgnoreRule k
        RuleIgnoreScope.Line) =
      some { st with rule_ignored_ranges :=
               (updMap st.rule_ignored_ranges k
                 (st.rule_ignored_ranges k ++
                   [⟨specLineStart src loc.start, specLineStop src loc.stop,
                     false⟩])) } := by
  have hpre : sliceTo src loc.start = some (src.take loc.start) := by
    simp [sliceTo, h1]
  have hpost : sliceFrom src loc.stop = some (src.drop loc.stop) := by
    simp [sliceFrom, h2]
  refine ⟨?_, ?_, ?_⟩ <;>
    simp only [InlineConfig.step, hpre, hpost] <;>
    rw [line_start_eq, ← line_stop_eq]

/-- Counterexample for C4 as stated: in `"ab\ncd\nef"` with a Line directive
at `(4, 5)`, the previous newline sits at offset `2`, so the claim predicts
range start `3` (just after it); the code emits start `2` (the newline's own
offset). -/
theorem line_claim_counterexample :
    ((InlineConfig.new allCode [(⟨4, 5⟩, InlineConfigItem.DisableLine)]
        "ab\ncd\nef".toList).map (·.disabled_ranges)) =
      some [⟨2, 5, false⟩]
    ∧ ((InlineConfig.new allCode [(⟨4, 5⟩, InlineConfigItem.DisableLine)]
        "ab\ncd\nef".toList).map (·.disabled_ranges)) ≠
      some [⟨3, 5, false⟩] := by
  rw [new_singleton]
  constructor
  · decide
  · decide

/-- Witness for C4's theorem at a concrete directive. -/
theorem line_arms_spec_witness :
    ((InlineConfig.step allCode "ab\ncd\nef".toList BuildState.init
        (⟨4, 5⟩, InlineConfigItem.DisableLine)).map (·.disabled_ranges)) =
      some [⟨2, 5, false⟩] := by
  rw [(line_arms_spec allCode "ab\ncd\nef".toList BuildState.init ⟨4, 5⟩
    ValidatorKind.Error (by decide) (by decide)).1]
  rfl

/-- Counterexample for C3 as stated: in `"f() { x }"` (no comments, so the
trivial comment scanner applies), brace balancing would end the range at
offset `9`, and the ignore-next-item directive does emit `[0, 9)`; but the
format disable-next-item directive at the same spot emits `[0, 1)` — it
performs no brace scan, ending at the next non-whitespace character. -/
theorem next_item_claim_counterexample :
    ((InlineConfig.new allCode [(⟨0, 0⟩, InlineConfigItem.DisableNextItem)]
        "f() \x7b x \x7d".toList).map (·.disabled_ranges)) = some [⟨0, 1, true⟩]
    ∧ ((InlineConfig.new allCode [(⟨0, 0⟩, InlineConfigItem.DisableNextItem)]
        "f() \x7b x \x7d".toList).map (·.disabled_ranges)) ≠ some [⟨0, 9, true⟩]
    ∧ ((InlineConfig.new allCode [(⟨0, 0⟩, InlineConfigItem.IgnoreNextItem)]
        "f() \x7b x \x7d".toList).map (·.ignored_ranges)) = some [⟨0, 9, true⟩] := by
  refine ⟨?_, ?_, ?_⟩ <;> rw [new_singleton] <;> decide

/-- C3 (amended): for every NextItem directive, the builder looks for the
first non-comment, non-whitespace character `s` after the directive's end.
If none exists, no range is emitted.  Otherwise, generic ignore-next-item
and rule-scoped next-item emit a Loose range from `s` to just past the brace
that returns the balance to zero (end of file when braces never balance or
none opens); format disable-next-item instead emits a Loose range from `s`
to the next non-whitespace non-comment character (end of file when none). -/
theorem next_item_arms_spec (cc : CommentScanner) (src : List Char)
    (st : BuildState) (loc : Loc) (k : ValidatorKind)
    (h2 : loc.stop ≤ src.length) (hcc : CommentScanner.Valid cc) :
    ((cc (src.drop loc.stop)).dropWhile (fun p => p.2.isWhitespace) = [] →
      InlineConfig.step cc src st (loc, InlineConfigItem.DisableNextItem) =
        some st
      ∧ InlineConfig.step cc src st (loc, InlineConfigItem.IgnoreNextItem) =
        some st
      ∧ InlineConfig.step cc src st
          (loc, InlineConfigItem.IgnoreRule k RuleIgnoreScope.NextItem) =
        some st)
    ∧ (∀ (i : Nat) (c : Char) (rest : List (Nat × Char)),
      (cc (src.drop loc.stop)).dropWhile (fun p => p.2.isWhitespace) =
        (i, c) :: rest →
      InlineConfig.step cc src st (loc, InlineConfigItem.DisableNextItem) =
        some { st with disabled_ranges := st.disabled_ranges ++
                 [⟨loc.stop + i,
                   (match rest.find? (fun p => !p.2.isWhitespace) with
                    | some (j, _) => loc.stop + j
                    | none => src.length), true⟩] }
      ∧ InlineConfig.step cc src st (loc, InlineConfigItem.IgnoreNextItem) =
        some { st with ignored_ranges := st.ignored_ranges ++
                 [⟨loc.stop + i,
                   (match findBraceEnd ((src.drop (loc.stop + i)).enum) 0 false with
                    | some e => loc.stop + i + e
                    | none => src.length), true⟩] }
      ∧ InlineConfig.step cc src st
          (loc, InlineConfigItem.IgnoreRule k RuleIgnoreScope.NextItem) =
        some { st with rule_ignored_ranges :=
                 (updMap st.rule_ignored_ranges k
                   (st.rule_ignored_ranges k ++
                     [⟨loc.stop + i,
                       (match findBraceEnd ((src.drop (loc.stop + i)).enum) 0 false with
                        | some e => loc.stop + i + e
                        | none => src.length), true⟩])) }) := by
  have hpost : sliceFrom src loc.stop = some (src.drop loc.stop) := by
    simp [sliceFrom, h2]
  constructor
  · intro hnil
    refine ⟨?_, ?_, ?_⟩ <;> simp only [InlineConfig.step, hpost, hnil]
  · intro i c rest hcons
    have hmem : (i, c) ∈ cc (src.drop loc.stop) := by
      have hsub := List.dropWhile_sublist
        (l := cc (src.drop loc.stop)) (p := fun p => p.2.isWhitespace)
      exact hsub.subset (hcons ▸ List.mem_cons_self _ _)
    have henum := hcc _ _ hmem
    have hib : i < (src.drop loc.stop).length := by
      have := (mem_enumFrom_bounds _ 0 _ (by simpa [List.enum] using henum)).2
      omega
    have hstart : loc.stop + i ≤ src.length := by
      have hl := List.length_drop loc.stop src
      omega
    have hsl2 : sliceFrom src (loc.stop + i) =
        some (src.drop (loc.stop + i)) := by
      simp [sliceFrom, hstart]
    refine ⟨?_, ?_, ?_⟩ <;>
      simp only [InlineConfig.step, hpost, hcons, hsl2]

/-- Witness for C3's amended theorem: the ignore-next-item arm at a
concrete directive. -/
theorem next_item_arms_spec_witness :
    ((InlineConfig.step allCode "ab".toList BuildState.init
        (⟨0, 0⟩, InlineConfigItem.IgnoreNextItem)).map (·.ignored_ranges)) =
      some [⟨0, 2, true⟩] := by
  rw [((next_item_arms_spec allCode "ab".toList BuildState.init ⟨0, 0⟩
      ValidatorKind.Error (by decide) (fun _ _ h => h)).2 0 'a' [(1, 'b')]
      (by decide)).2.1]
  rfl

/-- C5: for every NextLine-scoped directive: the emitted range starts at the
first character after the next newline following the directive and ends just
past the newline after that (inclusive of that newline) or at end of file;
generic disable-next-line and ignore-next-line emit Strict ranges while the
rule-scoped next-line directive emits a Loose range; when no character
follows the next newline (or there is no newline at all), no range is
emitted. -/
theorem next_line_arms_spec (cc : CommentScanner) (src : List Char)
    (st : BuildState) (loc : Loc) (k : ValidatorKind)
    (h2 : loc.stop ≤ src.length) :
    (specNextLineRange src loc.stop = none →
      InlineConfig.step cc src st (loc, InlineConfigItem.DisableNextLine) =
        some st
      ∧ InlineConfig.step cc src st (loc, InlineConfigItem.IgnoreNextLine) =
        some st
      ∧ InlineConfig.step cc src st
          (loc, InlineConfigItem.IgnoreRule k RuleIgnoreScope.NextLine) =
        some st)
    ∧ (∀ a b : Nat, specNextLineRange src loc.stop = some (a, b) →
      InlineConfig.step cc src st (loc, InlineConfigItem.DisableNextLine) =
        some { st with disabled_ranges := st.disabled_ranges ++
                 [⟨a, b, false⟩] }
      ∧ InlineConfig.step cc src st (loc, InlineConfigItem.IgnoreNextLine) =
        some { st with ignored_ranges := st.ignored_ranges ++
                 [⟨a, b, false⟩] }
      ∧ InlineConfig.step cc src st
          (loc, InlineConfigItem.IgnoreRule k RuleIgnoreScope.NextLine) =
        some { st with rule_ignored_ranges :=
                 (updMap st.rule_ignored_ranges k
                   (st.rule_ignored_ranges k ++ [⟨a, b, true⟩])) }) := by
  have hpost : sliceFrom src loc.stop = some (src.drop loc.stop) := by
    simp [sliceFrom, h2]
  constructor
  · intro hnone
    have hl2 := nextLine_core_none src loc.stop hnone
    refine ⟨?_, ?_, ?_⟩ <;> simp only [InlineConfig.step, hpost, hl2]
  · intro a b hab
    obtain ⟨i, c, rest, hl2, ha, hb⟩ := nextLine_core_some src loc.stop a b hab
    refine ⟨?_, ?_, ?_⟩ <;> simp only [InlineConfig.step, hpost, hl2] <;>
      rw [← ha, ← hb]

/-- Witness for C5's theorem at a concrete rule-scoped directive (which
emits a Loose range). -/
theorem next_line_arms_spec_witness :
    ((InlineConfig.step allCode "ab\ncd\nef".toList BuildState.init
        (⟨0, 2⟩, InlineConfigItem.IgnoreRule ValidatorKind.Error
          RuleIgnoreScope.NextLine)).map
        (fun st => st.rule_ignored_ranges ValidatorKind.Error)) =
      some [⟨3, 6, true⟩] := by
  rw [((next_line_arms_spec allCode "ab\ncd\nef".toList BuildState.init ⟨0, 2⟩
    ValidatorKind.Error (by decide)).2 3 6 (by decide)).2.2]
  rfl

/-- C6: RegionStart records the directive's end offset as pending start
when the depth is 0 and always increments the depth; RegionEnd decrements
the depth floored at 0 and, when it reaches 0 with a pending start, emits
one Strict range ending at the End directive's start offset for the generic
universes but at its end offset for rule-scoped universes; nested
Start/Start/End/End collapses to one outer range; and a pending start left
after all tokens is flushed as one Strict range to end of file. -/
theorem region_arms_spec (cc : CommentScanner) (src : List Char)
    (st : BuildState) (loc : Loc) (k : ValidatorKind) (s : Nat) :
    (InlineConfig.step cc src st (loc, InlineConfigItem.DisableStart) =
      some { st with
               disabled_range_start :=
                 (if st.disabled_depth = 0 then some loc.stop
                  else st.disabled_range_start)
               disabled_depth := st.disabled_depth + 1 })
    ∧ (InlineConfig.step cc src st (loc, InlineConfigItem.IgnoreStart) =
      some { st with
               ignored_range_start :=
                 (if st.ignored_depth = 0 then some loc.stop
                  else st.ignored_range_start)
               ignored_depth := st.ignored_depth + 1 })
    ∧ (InlineConfig.step cc src st
        (loc, InlineConfigItem.IgnoreRule k RuleIgnoreScope.Start) =
      some { st with
               rule_ignored_starts :=
                 (if st.rule_ignored_depths k = 0 then
                    updMap st.rule_ignored_starts k (some loc.stop)
                  else st.rule_ignored_starts)
               rule_ignored_depths :=
                 (updMap st.rule_ignored_depths k
                   (st.rule_ignored_depths k + 1)) })
    ∧ (2 ≤ st.disabled_depth →
      InlineConfig.step cc src st (loc, InlineConfigItem.DisableEnd) =
        some { st with disabled_depth := st.disabled_depth - 1 })
    ∧ (st.disabled_depth ≤ 1 → st.disabled_range_start = some s →
      InlineConfig.step cc src st (loc, InlineConfigItem.DisableEnd) =
        some { st with
                 disabled_depth := 0
                 disabled_range_start := none
                 disabled_ranges := st.disabled_ranges ++
                   [⟨s, loc.start, false⟩] })
    ∧ (st.disabled_depth ≤ 1 → st.disabled_range_start = none →
      InlineConfig.step cc src st (loc, InlineConfigItem.DisableEnd) =
        some { st with
                 disabled_depth := 0
                 disabled_range_start := none })
    ∧ (2 ≤ st.ignored_depth →
      InlineConfig.step cc src st (loc, InlineConfigItem.IgnoreEnd) =
        some { st with ignored_depth := st.ignored_depth - 1 })
    ∧ (st.ignored_depth ≤ 1 → st.ignored_range_start = some s →
      InlineConfig.step cc src st (loc, InlineConfigItem.IgnoreEnd) =
        some { st with
                 ignored_depth := 0
                 ignored_range_start := none
                 ignored_ranges := st.ignored_ranges ++
                   [⟨s, loc.start, false⟩] })
    ∧ (st.ignored_depth ≤ 1 → st.ignored_range_start = none →
      InlineConfig.step cc src st (loc, InlineConfigItem.IgnoreEnd) =
        some { st with
                 ignored_depth := 0
                 ignored_range_start := none })
    ∧ (2 ≤ st.rule_ignored_depths k →
      InlineConfig.step cc src st
          (loc, InlineConfigItem.IgnoreRule k RuleIgnoreScope.End) =
        some { st with rule_ignored_depths :=
                 (updMap st.rule_ignored_depths k
                   (st.rule_ignored_depths k - 1)) })
    ∧ (st.rule_ignored_depths k ≤ 1 → st.rule_ignored_starts k = some s →
      InlineConfig.step cc src st
          (loc, InlineConfigItem.IgnoreRule k RuleIgnoreScope.End) =
        some { st with
                 rule_ignored_depths := updMap st.rule_ignored_depths k 0
                 rule_ignored_starts := updMap st.rule_ignored_starts k none
                 rule_ignored_ranges :=
                   (updMap st.rule_ignored_ranges k
                     (st.rule_ignored_ranges k ++ [⟨s, loc.stop, false⟩])) })
    ∧ (st.rule_ignored_depths k ≤ 1 → st.rule_ignored_starts k = none →
      InlineConfig.step cc src st
          (loc, InlineConfigItem.IgnoreRule k RuleIgnoreScope.End) =
        some { st with
                 rule_ignored_depths := updMap st.rule_ignored_depths k 0
                 rule_ignored_starts := updMap st.rule_ignored_starts k none })
    ∧ ((InlineConfig.flush st src).disabled_ranges = st.disabled_ranges ++
        (match st.disabled_range_start with
         | some s' => [⟨s', src.length, false⟩]
         | none => []))
    ∧ ((InlineConfig.flush st src).ignored_ranges = st.ignored_ranges ++
        (match st.ignored_range_start with
         | some s' => [⟨s', src.length, false⟩]
         | none => []))
    ∧ (∀ k' : ValidatorKind,
        (InlineConfig.flush st src).rule_ignored_ranges k' =
          st.rule_ignored_ranges k' ++
            (match st.rule_ignored_starts k' with
             | some s' => [⟨s', src.length, false⟩]
             | none => []))
    ∧ (∀ l1 l2 l3 l4 : Loc, l1.start ≤ l2.start → l2.start ≤ l3.start →
        l3.start ≤ l4.start →
        (InlineConfig.new cc [(l1, InlineConfigItem.DisableStart),
            (l2, InlineConfigItem.DisableStart),
            (l3, InlineConfigItem.DisableEnd),
            (l4, InlineConfigItem.DisableEnd)] src).map (·.disabled_ranges) =
          some [⟨l1.stop, l4.start, false⟩]) := by
  refine ⟨rfl, rfl, rfl, ?_, ?_, ?_, ?_, ?_, ?_, ?_, ?_, ?_, rfl, rfl,
    fun _ => rfl, ?_⟩
  · intro hd
    have h1 : ¬ (st.disabled_depth - 1 = 0) := by omega
    simp [InlineConfig.step, h1]
  · intro hd hs
    have h1 : st.disabled_depth - 1 = 0 := by omega
    simp [InlineConfig.step, h1, hs]
  · intro hd hs
    have h1 : st.disabled_depth - 1 = 0 := by omega
    simp [InlineConfig.step, h1, hs]
  · intro hd
    have h1 : ¬ (st.ignored_depth - 1 = 0) := by omega
    simp [InlineConfig.step, h1]
  · intro hd hs
    have h1 : st.ignored_depth - 1 = 0 := by omega
    simp [InlineConfig.step, h1, hs]
  · intro hd hs
    have h1 : st.ignored_depth - 1 = 0 := by omega
    simp [InlineConfig.step, h1, hs]
  · intro hd
    have h1 : ¬ (st.rule_ignored_depths k - 1 = 0) := by omega
    simp [InlineConfig.step, h1]
  · intro hd hs
    have h1 : st.rule_ignored_depths k - 1 = 0 := by omega
    simp [InlineConfig.step, h1, hs]
  · intro hd hs
    have h1 : st.rule_ignored_depths k - 1 = 0 := by omega
    simp [InlineConfig.step, h1, hs]
  · intro l1 l2 l3 l4 h12 h23 h34
    have hsorted : [(l1, InlineConfigItem.DisableStart),
        (l2, InlineConfigItem.DisableStart),
        (l3, InlineConfigItem.DisableEnd),
        (l4, InlineConfigItem.DisableEnd)].mergeSort
          (fun a b => decide (a.1.start ≤ b.1.start)) =
        [(l1, InlineConfigItem.DisableStart),
         (l2, InlineConfigItem.DisableStart),
         (l3, InlineConfigItem.DisableEnd),
         (l4, InlineConfigItem.DisableEnd)] := by
      apply List.mergeSort_of_sorted
      simp [List.pairwise_cons]
      omega
    simp [InlineConfig.new, hsorted, List.foldlM, InlineConfig.step,
      InlineConfig.flush, BuildState.init]

/-- Witness for C6 at a concrete nested Start/Start/End/End sequence. -/
theorem region_arms_spec_witness :
    (InlineConfig.new allCode [(⟨0, 1⟩, InlineConfigItem.DisableStart),
        (⟨2, 3⟩, InlineConfigItem.DisableStart),
        (⟨4, 5⟩, InlineConfigItem.DisableEnd),
        (⟨6, 7⟩, InlineConfigItem.DisableEnd)] "abcdefgh".toList).map
      (·.disabled_ranges) = some [⟨1, 6, false⟩] :=
  (region_arms_spec allCode "abcdefgh".toList BuildState.init ⟨0, 0⟩
      ValidatorKind.Error 0).2.2.2.2.2.2.2.2.2.2.2.2.2.2.2
    ⟨0, 1⟩ ⟨2, 3⟩ ⟨4, 5⟩ ⟨6, 7⟩ (by decide) (by decide) (by decide)

/-- C7: a rule-scoped whole-file directive emits a Loose range
`[0, n + 1)` (for source length `n`) for exactly its own rule; building
from that directive, a Finding of that rule is rule-ignored iff its start
offset is at most `n` (so a location starting exactly at `n` is covered),
and Findings of every other rule are unaffected. -/
theorem rule_file_spec (cc : CommentScanner) (src : List Char)
    (st : BuildState) (loc : Loc) (k : ValidatorKind) :
    (InlineConfig.step cc src st
        (loc, InlineConfigItem.IgnoreRule k RuleIgnoreScope.File) =
      some { st with rule_ignored_ranges :=
               (updMap st.rule_ignored_ranges k
                 (st.rule_ignored_ranges k ++ [⟨0, src.length + 1, true⟩])) })
    ∧ (∀ l : Loc, (⟨0, src.length + 1, true⟩ : IgnoredRange).includes l = true ↔
        l.start ≤ src.length)
    ∧ (∀ l : Loc, (InlineConfig.new cc
        [(loc, InlineConfigItem.IgnoreRule k RuleIgnoreScope.File)] src).map
        (fun cfg => cfg.is_rule_ignored l k) =
      some (decide (l.start ≤ src.length)))
    ∧ (∀ (l : Loc) (k' : ValidatorKind), k' ≠ k → (InlineConfig.new cc
        [(loc, InlineConfigItem.IgnoreRule k RuleIgnoreScope.File)] src).map
        (fun cfg => cfg.is_rule_ignored l k') =
      some false) := by
  refine ⟨rfl, ?_, ?_, ?_⟩
  · intro l
    simp [IgnoredRange.includes, Nat.lt_succ_iff]
  · intro l
    rw [new_singleton]
    simp only [InlineConfig.step, Option.map_some']
    simp [InlineConfig.flush, InlineConfig.is_rule_ignored, BuildState.init,
      updMap, IgnoredRange.includes, Nat.lt_succ_iff]
  · intro l k' hk
    rw [new_singleton]
    simp only [InlineConfig.step, Option.map_some']
    simp [InlineConfig.flush, InlineConfig.is_rule_ignored, BuildState.init,
      updMap, hk]

/-- Witness for C7 at a concrete whole-file directive: a location starting
exactly at the source length is suppressed for the directive's rule and not
for another rule. -/
theorem rule_file_spec_witness :
    ((InlineConfig.new allCode [(⟨0, 1⟩, InlineConfigItem.IgnoreRule
        ValidatorKind.Error RuleIgnoreScope.File)] "abc".toList).map
      (fun cfg => cfg.is_rule_ignored ⟨3, 9⟩ ValidatorKind.Error)) = some true
    ∧ ((InlineConfig.new allCode [(⟨0, 1⟩, InlineConfigItem.IgnoreRule
        ValidatorKind.Error RuleIgnoreScope.File)] "abc".toList).map
      (fun cfg => cfg.is_rule_ignored ⟨3, 9⟩ ValidatorKind.Import)) =
      some false := by
  constructor
  · rw [(rule_file_spec allCode "abc".toList BuildState.init ⟨0, 1⟩
      ValidatorKind.Error).2.2.1 ⟨3, 9⟩]
    rfl
  · exact (rule_file_spec allCode "abc".toList BuildState.init ⟨0, 1⟩
      ValidatorKind.Error).2.2.2 ⟨3, 9⟩ ValidatorKind.Import (by decide)

/-- Witness for C2: two reports holding the same two findings in opposite
insertion orders render the same text. -/
theorem report_render_spec_witness :
    Report.fmt ⟨[⟨"b.sol", 1, ValidatorKind.Error, "m1", false, false⟩,
                 ⟨"a.sol", 2, ValidatorKind.Import, "m2", false, false⟩]⟩ =
    Report.fmt ⟨[⟨"a.sol", 2, ValidatorKind.Import, "m2", false, false⟩,
                 ⟨"b.sol", 1, ValidatorKind.Error, "m1", false, false⟩]⟩ :=
  (report_render_spec _ _).2.2 (List.Perm.swap _ _ _)

/-- Counterexample for C9 as stated: two items identical in rule, file,
position and message but with different stored `is_ignored` flags yield
different `is_valid` results.  The suppression booleans are stored
per-Finding state, written when the item is constructed and read back at
render/validity-check time — not booleans recomputed from a Suppression Set
at render time and never stored. -/
theorem report_flags_counterexample :
    Report.is_valid
      ⟨[⟨"a.sol", 1, ValidatorKind.Error, "m", false, true⟩]⟩ = true
    ∧ Report.is_valid
      ⟨[⟨"a.sol", 1, ValidatorKind.Error, "m", false, false⟩]⟩ = false
    ∧ (⟨"a.sol", 1, ValidatorKind.Error, "m", false, true⟩ : InvalidItem).file =
      (⟨"a.sol", 1, ValidatorKind.Error, "m", false, false⟩ : InvalidItem).file
    ∧ (⟨"a.sol", 1, ValidatorKind.Error, "m", false, true⟩ : InvalidItem).position =
      (⟨"a.sol", 1, ValidatorKind.Error, "m", false, false⟩ : InvalidItem).position
    ∧ (⟨"a.sol", 1, ValidatorKind.Error, "m", false, true⟩ : InvalidItem).kind =
      (⟨"a.sol", 1, ValidatorKind.Error, "m", false, false⟩ : InvalidItem).kind
    ∧ (⟨"a.sol", 1, ValidatorKind.Error, "m", false, true⟩ : InvalidItem).message =
      (⟨"a.sol", 1, ValidatorKind.Error, "m", false, false⟩ : InvalidItem).message := by
  refine ⟨rfl, rfl, rfl, rfl, rfl, rfl⟩

/-- C9 (amended): the two suppression booleans are stored fields of each
item, set when the item is constructed; rendering and `is_valid` read
exactly those stored fields (an item counts as suppressed iff
`is_disabled || is_ignored`), and accumulation only appends — neither
operation rewrites a stored item. -/
theorem report_reads_stored_flags (r : Report) (i : InvalidItem) :
    (Report.is_valid r =
      (r.invalid_items.all fun it => it.is_disabled || it.is_ignored))
    ∧ Report.fmtLines r =
      ((r.invalid_items.filter fun it =>
        !it.is_disabled && !it.is_ignored).mergeSort itemLe).map
        InvalidItem.description
    ∧ (Report.add_item r i).invalid_items = r.invalid_items ++ [i] := by
  refine ⟨?_, rfl, rfl⟩
  obtain ⟨l⟩ := r
  induction l with
  | nil => rfl
  | cons a t ih =>
    simp only [Report.is_valid, List.any_cons, List.all_cons] at *
    rw [← ih]
    cases a.is_disabled <;> cases a.is_ignored <;> simp

theorem step_isSome (cc : CommentScanner) (hcc : CommentScanner.Valid cc)
    (src : List Char) (st : BuildState) (loc : Loc) (item : InlineConfigItem)
    (h1 : loc.start ≤ src.length) (h2 : loc.stop ≤ src.length) :
    (InlineConfig.step cc src st (loc, item)).isSome := by
  have hpost : sliceFrom src loc.stop = some (src.drop loc.stop) := by
    simp [sliceFrom, h2]
  have hpre : sliceTo src loc.start = some (src.take loc.start) := by
    simp [sliceTo, h1]
  have hnext : ∀ (i : Nat) (c : Char) (rest : List (Nat × Char)),
      (cc (src.drop loc.stop)).dropWhile (fun p => p.2.isWhitespace) =
        (i, c) :: rest →
      sliceFrom src (loc.stop + i) = some (src.drop (loc.stop + i)) := by
    intro i c rest hcons
    have hmem : (i, c) ∈ cc (src.drop loc.stop) := by
      have hsub := List.dropWhile_sublist
        (l := cc (src.drop loc.stop)) (p := fun p => p.2.isWhitespace)
      exact hsub.subset (hcons ▸ List.mem_cons_self _ _)
    have henum := hcc _ _ hmem
    have hib : i < (src.drop loc.stop).length := by
      have := (mem_enumFrom_bounds _ 0 _ (by simpa [List.enum] using henum)).2
      omega
    have hl := List.length_drop loc.stop src
    simp only [sliceFrom, if_pos (by omega : loc.stop + i ≤ src.length)]
  cases item with
  | DisableNextItem =>
    simp only [InlineConfig.step, hpost]
    rcases hcons : (cc (src.drop loc.stop)).dropWhile
        (fun p => p.2.isWhitespace) with _ | ⟨⟨i, c⟩, rest⟩ <;> simp [hcons]
  | DisableLine => simp [InlineConfig.step, hpre, hpost]
  | DisableNextLine =>
    simp only [InlineConfig.step, hpost]
    rcases hL : (((src.drop loc.stop).enum.dropWhile
        (fun p => p.2 ≠ '\n')).drop 1) with _ | ⟨⟨i, c⟩, rest⟩ <;>
      rw [hL] <;> simp
  | DisableStart => simp [InlineConfig.step]
  | DisableEnd =>
    simp only [InlineConfig.step]
    split
    · cases st.disabled_range_start <;> simp
    · simp
  | IgnoreNextItem =>
    simp only [InlineConfig.step, hpost]
    rcases hcons : (cc (src.drop loc.stop)).dropWhile
        (fun p => p.2.isWhitespace) with _ | ⟨⟨i, c⟩, rest⟩
    · simp [hcons]
    · simp [hcons, hnext i c rest hcons]
  | IgnoreLine => simp [InlineConfig.step, hpre, hpost]
  | IgnoreNextLine =>
    simp only [InlineConfig.step, hpost]
    rcases hL : (((src.drop loc.stop).enum.dropWhile
        (fun p => p.2 ≠ '\n')).drop 1) with _ | ⟨⟨i, c⟩, rest⟩ <;>
      rw [hL] <;> simp
  | IgnoreStart => simp [InlineConfig.step]
  | IgnoreEnd =>
    simp only [InlineConfig.step]
    split
    · cases st.ignored_range_start <;> simp
    · simp
  | IgnoreRule k scope =>
    cases scope with
    | NextItem =>
      simp only [InlineConfig.step, hpost]
      rcases hcons : (cc (src.drop loc.stop)).dropWhile
          (fun p => p.2.isWhitespace) with _ | ⟨⟨i, c⟩, rest⟩
      · simp [hcons]
      · simp [hcons, hnext i c rest hcons]
    | Line => simp [InlineConfig.step, hpre, hpost]
    | NextLine =>
      simp only [InlineConfig.step, hpost]
      rcases hL : (((src.drop loc.stop).enum.dropWhile
          (fun p => p.2 ≠ '\n')).drop 1) with _ | ⟨⟨i, c⟩, rest⟩ <;>
        rw [hL] <;> simp
    | Start => simp [InlineConfig.step]
    | End =>
      simp only [InlineConfig.step]
      split
      · cases st.rule_ignored_starts k <;> simp
      · simp
    | File => simp [InlineConfig.step]

theorem foldlM_step_isSome (cc : CommentScanner) (hcc : CommentScanner.Valid cc)
    (src : List Char) :
    ∀ (l : List (Loc × InlineConfigItem)) (st : BuildState),
    (∀ p ∈ l, p.1.start ≤ src.length ∧ p.1.stop ≤ src.length) →
    (l.foldlM (InlineConfig.step cc src) st).isSome := by
  intro l
  induction l with
  | nil => intro st _; simp [List.foldlM]
  | cons x xs ih =>
    intro st h
    obtain ⟨xl, xi⟩ := x
    have hx := h (xl, xi) (List.mem_cons_self _ _)
    have hstep := step_isSome cc hcc src st xl xi hx.1 hx.2
    cases hs : InlineConfig.step cc src st (xl, xi) with
    | none => rw [hs] at hstep; cases hstep
    | some st' =>
      have htail := ih st' (fun p hp => h p (List.mem_cons_of_mem _ hp))
      simpa [List.foldlM, hs] using htail

/-- C10: `InlineConfig::new` is total under the precondition that every
directive token's location satisfies `start ≤ end ≤ length src` (offsets in
the character-indexed embedding are always on character boundaries): every
slice it takes is then in bounds and the out-of-range (`none`) branch of
the embedding is unreachable; a token violating the precondition does reach
it. -/
theorem new_total (cc : CommentScanner) (hcc : CommentScanner.Valid cc)
    (items : List (Loc × InlineConfigItem)) (src : List Char)
    (h : ∀ p ∈ items, p.1.start ≤ p.1.stop ∧ p.1.stop ≤ src.length) :
    (InlineConfig.new cc items src).isSome
    ∧ (InlineConfig.new allCode [(⟨5, 20⟩, InlineConfigItem.DisableLine)]
        "abc".toList).isSome = false := by
  constructor
  · simp only [InlineConfig.new]
    have hmem : ∀ p ∈ items.mergeSort
        (fun a b => decide (a.1.start ≤ b.1.start)),
        p.1.start ≤ src.length ∧ p.1.stop ≤ src.length := by
      intro p hp
      have hb := h p (List.mem_mergeSort.mp hp)
      exact ⟨le_trans hb.1 hb.2, hb.2⟩
    have hres := foldlM_step_isSome cc hcc src _ BuildState.init hmem
    cases hq : (items.mergeSort (fun a b => decide (a.1.start ≤ b.1.start))).foldlM
        (InlineConfig.step cc src) BuildState.init with
    | none => rw [hq] at hres; cases hres
    | some stq => simp [hq]
  · rw [new_singleton]
    decide

/-- Witness for C10 at a concrete scanner and token list. -/
theorem new_total_witness :
    (InlineConfig.new (fun _ => []) [(⟨1, 2⟩, InlineConfigItem.DisableLine)]
      "abc".toList).isSome = true :=
  (new_total (fun _ => []) (fun _ p hp => absurd hp (List.not_mem_nil p))
    [(⟨1, 2⟩, InlineConfigItem.DisableLine)] "abc".toList
    (fun p hp => by
      rw [List.mem_singleton] at hp
      subst hp
      exact ⟨by decide, by decide⟩)).1

/-- C8: parsing yields a rule-scoped directive iff the text is `ignore-`
followed by a recognized rule name and an optional recognized scope suffix;
a bare rule name defaults to NextItem scope; and every failure — unknown
rule name, unknown scope suffix, or unrecognized generic keyword — is the
same "invalid inline config item" error carrying the whole input. -/
theorem from_str_spec (s : List Char) :
    (isRuleOk (InlineConfigItem.from_str s) = true ↔
      ∃ (k : ValidatorKind) (sc : RuleIgnoreScope),
        InlineConfigItem.from_str s =
          Except.ok (InlineConfigItem.IgnoreRule k sc))
    ∧ (isRuleOk (InlineConfigItem.from_str s) = true ↔
      ∃ (rule sfx : List Char) (k : ValidatorKind),
        parse_rule_name rule = some k
        ∧ s = "ignore-".toList ++ rule ++ sfx
        ∧ (sfx = [] ∨ sfx = "-next-item".toList ∨ sfx = "-line".toList
           ∨ sfx = "-next-line".toList ∨ sfx = "-start".toList
           ∨ sfx = "-end".toList ∨ sfx = "-file".toList))
    ∧ (∀ (rule : List Char) (k : ValidatorKind),
        parse_rule_name rule = some k →
        InlineConfigItem.from_str ("ignore-".toList ++ rule) =
          Except.ok (InlineConfigItem.IgnoreRule k RuleIgnoreScope.NextItem))
    ∧ (∀ e : List Char, InlineConfigItem.from_str s = Except.error e →
        e = s) := by
  have hshape : isRuleOk (InlineConfigItem.from_str s) = true ↔
      ∃ (k : ValidatorKind) (sc : RuleIgnoreScope),
        InlineConfigItem.from_str s =
          Except.ok (InlineConfigItem.IgnoreRule k sc) := by
    cases hfs : InlineConfigItem.from_str s with
    | error e => simp [isRuleOk]
    | ok it =>
      cases it <;> simp [isRuleOk]
  have hbare : ∀ (rule : List Char) (k : ValidatorKind),
      parse_rule_name rule = some k →
      InlineConfigItem.from_str ("ignore-".toList ++ rule) =
        Except.ok (InlineConfigItem.IgnoreRule k RuleIgnoreScope.NextItem) := by
    intro rule k hr
    rcases parse_rule_name_eq_some rule k hr with
      rfl | rfl | rfl | rfl | rfl | rfl | rfl | rfl <;>
      injection hr with hk <;> subst hk <;> rfl
  refine ⟨hshape, ?_, hbare, ?_⟩
  · constructor
    · intro hok
      obtain ⟨k, sc, h⟩ := hshape.mp hok
      cases hp : stripPfx "ignore-".toList s with
      | none =>
        simp only [InlineConfigItem.from_str, hp] at h
        exact absurd h (genericItem_ne_rule _ _ _)
      | some rest =>
        have hs : s = "ignore-".toList ++ rest := stripPfx_eq_some _ _ _ hp
        cases hf : (stripSfx "-file".toList rest).bind parse_rule_name with
        | some k' =>
          rw [Option.bind_eq_some] at hf
          obtain ⟨rule, hsf, hpr⟩ := hf
          have hrf := stripSfx_eq_some _ _ _ hsf
          refine ⟨rule, "-file".toList, k', hpr, ?_, ?_⟩
          · rw [hs, hrf, List.append_assoc]
          · exact Or.inr (Or.inr (Or.inr (Or.inr (Or.inr (Or.inr rfl)))))
        | none =>
          cases hsp : splitOnce '-' rest with
          | some ab =>
            obtain ⟨rule, scope_str⟩ := ab
            cases hr : parse_rule_name rule with
            | some k' =>
              cases hsc : ruleScopeOfStr scope_str with
              | some sc' =>
                have hrs := splitOnce_eq_some '-' rest rule scope_str hsp
                refine ⟨rule, '-' :: scope_str, k', hr, ?_, ?_⟩
                · rw [hs, hrs, List.append_assoc]
                · rcases ruleScopeOfStr_eq_some _ _ hsc with
                    rfl | rfl | rfl | rfl | rfl <;> decide
              | none =>
                simp only [InlineConfigItem.from_str, hp, hf, hsp, hr,
                  hsc] at h
                cases h
            | none =>
              simp only [InlineConfigItem.from_str, hp, hf, hsp, hr] at h
              obtain ⟨hpr, rfl⟩ := bareOrGeneric_ok _ _ _ _ h
              exact ⟨rest, [], k, hpr,
                by rw [hs, List.append_nil], Or.inl rfl⟩
          | none =>
            simp only [InlineConfigItem.from_str, hp, hf, hsp] at h
            obtain ⟨hpr, rfl⟩ := bareOrGeneric_ok _ _ _ _ h
            exact ⟨rest, [], k, hpr,
              by rw [hs, List.append_nil], Or.inl rfl⟩
    · rintro ⟨rule, sfx, k, hr, rfl, hsfx⟩
      rcases parse_rule_name_eq_some rule k hr with
        rfl | rfl | rfl | rfl | rfl | rfl | rfl | rfl <;>
        rcases hsfx with rfl | rfl | rfl | rfl | rfl | rfl | rfl <;> decide
  · intro e h
    cases hp : stripPfx "ignore-".toList s with
    | none =>
      simp only [InlineConfigItem.from_str, hp] at h
      exact genericItem_err _ _ h
    | some rest =>
      cases hf : (stripSfx "-file".toList rest).bind parse_rule_name with
      | some k' =>
        simp only [InlineConfigItem.from_str, hp, hf] at h
        cases h
      | none =>
        cases hsp : splitOnce '-' rest with
        | some ab =>
          obtain ⟨rule, scope_str⟩ := ab
          cases hr : parse_rule_name rule with
          | some k' =>
            cases hsc : ruleScopeOfStr scope_str with
            | some sc' =>
              simp only [InlineConfigItem.from_str, hp, hf, hsp, hr, hsc] at h
              cases h
            | none =>
              simp only [InlineConfigItem.from_str, hp, hf, hsp, hr, hsc] at h
              injection h with h1
              exact h1.symm
          | none =>
            simp only [InlineConfigItem.from_str, hp, hf, hsp, hr] at h
            exact bareOrGeneric_err _ _ _ h
        | none =>
          simp only [InlineConfigItem.from_str, hp, hf, hsp] at h
          exact bareOrGeneric_err _ _ _ h

/-- Witness for C8 at concrete directive strings: a bare rule name parses
to NextItem scope, and the error for an unknown rule name carries the whole
input. -/
theorem from_str_spec_witness :
    InlineConfigItem.from_str ("ignore-".toList ++ "error".toList) =
      Except.ok (InlineConfigItem.IgnoreRule ValidatorKind.Error
        RuleIgnoreScope.NextItem)
    ∧ "ignore-bogus".toList = "ignore-bogus".toList :=
  ⟨(from_str_spec []).2.2.1 "error".toList ValidatorKind.Error (by decide),
   (from_str_spec "ignore-bogus".toList).2.2.2 "ignore-bogus".toList rfl⟩

end Scopelint
